import Mathlib

/-!
Shallow embedding of the retrieval core in `src/utils/utils.py` (product-key
memory utilities): key codebook generators, dimension slicing, the batched
cartesian product, and the exact nearest-neighbor search backends, together
with theorems settling the specification claims.

Scalar values are modelled over an arbitrary linear ordered field `α`
(instantiated with `ℚ` for concrete evaluation and with `ℝ` for statements
about true Euclidean norms); the floating-point `sqrt` used by `norm` calls
is passed explicitly (`Real.sqrt` at the `ℝ` instance).  Matrices of shape
`(m, d)` are functions `Fin m → Fin d → α`.
-/

namespace PKM

section Scalar

variable {α : Type} [LinearOrderedField α]

/-- Row dot product: entry `(i, j)` of `a.mm(b.t())`. -/
def dot {d : ℕ} (u v : Fin d → α) : α := ∑ t, u t * v t

/-- Sum of squared entries of a row: `(x ** 2).sum(1)`. -/
def sqnorm {d : ℕ} (u : Fin d → α) : α := ∑ t, u t ^ 2

/-- Model of `x.norm(2, 1)` / `np.linalg.norm(x, axis=1)`: the L2 norm of a row,
with the square root passed explicitly (`Real.sqrt` over `ℝ`). -/
def nrm {d : ℕ} (sqrt : α → α) (u : Fin d → α) : α := sqrt (sqnorm u)

/-- The ranking order used to model `torch.topk(k, dim=0, largest=True)`
on one score column: higher score first, ties broken by smaller key index
(`topk`'s tie order is unspecified; the model fixes a deterministic one). -/
def knnOrder {m : ℕ} (col : Fin m → α) (i i' : Fin m) : Prop :=
  col i' < col i ∨ (col i = col i' ∧ i ≤ i')

instance {m : ℕ} (col : Fin m → α) : DecidableRel (knnOrder col) := fun i i' =>
  inferInstanceAs (Decidable (col i' < col i ∨ (col i = col i' ∧ i ≤ i')))

instance {m : ℕ} (col : Fin m → α) : IsTotal (Fin m) (knnOrder col) := by
  constructor
  intro i i'
  rcases lt_trichotomy (col i) (col i') with h | h | h
  · exact Or.inr (Or.inl h)
  · rcases le_total i i' with hle | hle
    · exact Or.inl (Or.inr ⟨h, hle⟩)
    · exact Or.inr (Or.inr ⟨h.symm, hle⟩)
  · exact Or.inl (Or.inl h)

instance {m : ℕ} (col : Fin m → α) : IsTrans (Fin m) (knnOrder col) := by
  constructor
  intro i i' i'' h1 h2
  rcases h1 with h1 | ⟨h1e, h1le⟩
  · rcases h2 with h2 | ⟨h2e, _⟩
    · exact Or.inl (h2.trans h1)
    · exact Or.inl (h2e ▸ h1)
  · rcases h2 with h2 | ⟨h2e, h2le⟩
    · exact Or.inl (h1e ▸ h2)
    · exact Or.inr ⟨h1e.trans h2e, h1le.trans h2le⟩

/-- All key indices ranked for one query column, best score first. -/
def rankedIdx {m : ℕ} (col : Fin m → α) : List (Fin m) :=
  List.insertionSort (knnOrder col) (List.finRange m)

/-- The shared tail of `get_knn_pytorch`:
`scores.topk(k=k, dim=0, largest=True)` followed by the two transposes.
Component 1 is the `(n, k)` score rows, component 2 the index rows. -/
def topkPhase {m n : ℕ} (scores : Fin m → Fin n → α) (k : ℕ) :
    (Fin n → List α) × (Fin n → List (Fin m)) :=
  (fun j => (((rankedIdx fun i => scores i j).take k).map fun i => scores i j),
   fun j => (rankedIdx fun i => scores i j).take k)

/-- The score matrix of `get_knn_pytorch` (src/utils/utils.py lines 113-125):
entry `(i, j)` scores key row `a i` against query row `b j` according to the
selected distance.  The float literal `1e-9` is modelled exactly. -/
def pytorchScores {m n d : ℕ} (sqrt : α → α) (distance : String)
    (a : Fin m → Fin d → α) (b : Fin n → Fin d → α) : Fin m → Fin n → α :=
  if distance = "dot_product" then
    fun i j => dot (a i) (b j)
  else if distance = "cosine" then
    fun i j => dot (a i) (b j) / (nrm sqrt (a i) + 1 / 1000000000)
      / (nrm sqrt (b j) + 1 / 1000000000)
  else
    fun i j => 2 * dot (a i) (b j) - sqnorm (a i) - sqnorm (b j)

/-- Embedding of `get_knn_pytorch` (src/utils/utils.py lines 94-131).
`a` is the `(m, da)` key matrix, `b` the `(n, db)` query matrix.  The three
`assert` statements (feature dimensions, `k > 0`, distance tag) are modelled
as the `InvalidArgument` error branch, matching the spec's error taxonomy;
`torch.topk` raises a distinct runtime error when `k` exceeds the number of
keys, modelled as the `RuntimeError` branch. -/
def get_knn_pytorch {m da n db : ℕ} (sqrt : α → α) (a : Fin m → Fin da → α)
    (b : Fin n → Fin db → α) (k : ℤ) (distance : String) :
    Except String ((Fin n → List α) × (Fin n → List (Fin m))) :=
  if h : db = da ∧ 0 < k ∧ distance ∈ ["dot_product", "cosine", "l2"] then
    if k.toNat ≤ m then
      Except.ok (topkPhase
        (pytorchScores sqrt distance a fun i j => b i (Fin.cast h.1.symm j))
        k.toNat)
    else Except.error "RuntimeError"
  else Except.error "InvalidArgument"

end Scalar

/-- Embedding of the argument validation of `get_knn_faiss`
(src/utils/utils.py lines 134-150): the `assert` statements on device
equality, the distance tag, and the feature dimensions, in source order.
The external `faiss.bfKnn` call itself is outside the repository and is not
modelled; this function returns `true` exactly when all asserts pass.
Devices are abstracted as natural-number identifiers.  Note the source has
no assert on `k`. -/
def get_knn_faiss_check (xb_dev xq_dev : ℕ) (d2 d1 : ℕ) (_k : ℤ)
    (distance : String) : Bool :=
  decide (xb_dev = xq_dev) && decide (distance ∈ ["dot_product", "l2"]) &&
    decide (d1 = d2)

/-- Embedding of `get_slices` (src/utils/utils.py lines 41-53).
`np.arange(0, dim, offset)` is the list `[i * offset | i < ⌈dim / offset⌉]`
and raises `ZeroDivisionError` when `offset = 0`, modelled as `none`. -/
def get_slices (dim head_id : ℕ) : Option (List (ℕ × ℕ)) :=
  if head_id = 0 then some [(0, dim)]
  else
    let offset := dim / 2 ^ (head_id + 1)
    if offset = 0 then none
    else
      let starts := (List.range ((dim + offset - 1) / offset)).map
        fun i => i * offset
      let slices1 := (starts.enum.filter fun ix => ix.1 % 2 == 0).map
        fun ix => (ix.2, ix.2 + offset)
      let slices2 := (starts.enum.filter fun ix => ix.1 % 2 == 1).map
        fun ix => (ix.2, ix.2 + offset)
      some (slices1 ++ slices2)

/-- Embedding of `cartesian_product` (src/utils/utils.py lines 56-74).
Tracing the tensor operations on the flattened output: for a position
`p < d1 * d2` of row `r`, the repeated copy of `a` contributes
`a r (p / d2)` and the tiled copy of `b` contributes `b r (p % d2)`. -/
def cartesian_product {α : Type} {n d1 d2 : ℕ} (a : Fin n → Fin d1 → α)
    (b : Fin n → Fin d2 → α) : Fin n → Fin (d1 * d2) → α × α :=
  fun r p => (a r p.divNat, b r p.modNat)

/-- The flattened row-major position of the ordered pair `(i, j)`. -/
def flatPos {d1 d2 : ℕ} (i : Fin d1) (j : Fin d2) : Fin (d1 * d2) :=
  ⟨i.val * d2 + j.val, by
    have h1 : i.val * d2 + j.val < (i.val + 1) * d2 := by
      rw [Nat.add_mul, one_mul]
      omega
    exact lt_of_lt_of_le h1 (Nat.mul_le_mul_right d2 i.isLt)⟩

section Keys

variable {α : Type} [LinearOrderedField α]

/-- Embedding of `get_gaussian_keys` (src/utils/utils.py lines 18-26).
The `np.random.RandomState(seed).randn(n_keys, dim)` draw is external
library state, modelled as the explicit `sample` matrix; the `float32`
cast is the identity in the exact-arithmetic model. -/
def get_gaussian_keys (sqrt : α → α) (n_keys dim : ℕ) (normalized : Bool)
    (sample : Fin n_keys → Fin dim → α) : Fin n_keys → Fin dim → α :=
  if normalized then fun i j => sample i j / nrm sqrt (sample i)
  else sample

/-- Embedding of `get_uniform_keys` (src/utils/utils.py lines 29-38).
The `rng.uniform(-bound, bound, (n_keys, dim))` draw is modelled as the
explicit `sample` matrix; numpy guarantees each drawn entry lies in the
half-open interval `[-bound, bound)` with `bound = 1 / sqrt dim`. -/
def get_uniform_keys (sqrt : α → α) (n_keys dim : ℕ) (normalized : Bool)
    (sample : Fin n_keys → Fin dim → α) : Fin n_keys → Fin dim → α :=
  if normalized then fun i j => sample i j / nrm sqrt (sample i)
  else sample

/-- The numpy contract for `rng.uniform(lo, hi, ...)`: every entry of the
drawn matrix lies in `[lo, hi)`. -/
def inRange {n d : ℕ} (lo hi : α) (X : Fin n → Fin d → α) : Prop :=
  ∀ i j, lo ≤ X i j ∧ X i j < hi

end Keys

end PKM

namespace PKM

/-- The union of the half-open ranges of a slice list, as a finite set. -/
def unionOf (l : List (ℕ × ℕ)) : Finset ℕ :=
  l.foldr (fun p s => Finset.Ico p.1 p.2 ∪ s) ∅

/-- The spec's reference ranking for the `l2` metric: directly rank the key
rows of `a` by negative squared Euclidean distance to query row `j` of `b`
(same deterministic tie order as the backend model) and keep the first `k`.
This definition follows the spec's words and is compared against the index
rows returned by `get_knn_pytorch` under the `l2` score. -/
def knnByNegSqdist {α : Type} [LinearOrderedField α] {m n d : ℕ}
    (a : Fin m → Fin d → α) (b : Fin n → Fin d → α) (k : ℕ) :
    Fin n → List (Fin m) :=
  fun j => (rankedIdx fun i => -∑ t, (b j t - a i t) ^ 2).take k

/-! ### Lemmas about `get_slices` -/

theorem mem_unionOf {l : List (ℕ × ℕ)} {x : ℕ} :
    x ∈ unionOf l ↔ ∃ p ∈ l, p.1 ≤ x ∧ x < p.2 := by
  induction l with
  | nil => simp [unionOf]
  | cons hd tl ih =>
    simp only [unionOf, List.foldr_cons, Finset.mem_union, Finset.mem_Ico,
      List.mem_cons] at *
    constructor
    · rintro (hx | hx)
      · exact ⟨hd, Or.inl rfl, hx⟩
      · obtain ⟨p, hp, hpx⟩ := ih.mp hx
        exact ⟨p, Or.inr hp, hpx⟩
    · rintro ⟨p, hp | hp, hpx⟩
      · exact Or.inl (hp ▸ hpx)
      · exact Or.inr (ih.mpr ⟨p, hp, hpx⟩)

/-- Unfolding `get_slices` for a positive head id whose block size is
positive: the result is the even-position blocks followed by the
odd-position blocks, where block `i` is `[i*offset, i*offset + offset)`. -/
theorem get_slices_eq (dim head_id off t : ℕ) (h0 : head_id ≠ 0)
    (hoffdef : off = dim / 2 ^ (head_id + 1)) (hoff : 0 < off)
    (ht : t = (dim + off - 1) / off) :
    get_slices dim head_id = some
      ((((List.range t).filter fun i => i % 2 == 0).map
          fun i => (i * off, i * off + off)) ++
       (((List.range t).filter fun i => i % 2 == 1).map
          fun i => (i * off, i * off + off))) := by
  subst hoffdef ht
  unfold get_slices
  rw [if_neg h0, if_neg (Nat.pos_iff_ne_zero.mp hoff)]
  have henum :
      ((List.range ((dim + dim / 2 ^ (head_id + 1) - 1) / (dim / 2 ^ (head_id + 1)))).map
          (fun i => i * (dim / 2 ^ (head_id + 1)))).enum =
        (List.range ((dim + dim / 2 ^ (head_id + 1) - 1) / (dim / 2 ^ (head_id + 1)))).map
          (fun i => (i, i * (dim / 2 ^ (head_id + 1)))) := by
    rw [List.enum_map, List.enum_eq_zip_range, List.length_range]
    have : List.range ((dim + dim / 2 ^ (head_id + 1) - 1) / (dim / 2 ^ (head_id + 1))) =
        (List.range ((dim + dim / 2 ^ (head_id + 1) - 1) / (dim / 2 ^ (head_id + 1)))).map id :=
      (List.map_id _).symm
    rw [this, List.zip_map', List.map_map]
    simp [Prod.map]
  simp only [henum, List.filter_map, List.map_map]
  rfl

theorem get_slices_head0 (dim : ℕ) : get_slices dim 0 = some [(0, dim)] := rfl

/-- Disjointness of two distinct blocks of width `off`. -/
theorem block_disjoint {off : ℕ} {i i' : ℕ} (h : i ≠ i') :
    Disjoint (Finset.Ico (i * off) (i * off + off))
      (Finset.Ico (i' * off) (i' * off + off)) := by
  rcases Nat.eq_zero_or_pos off with hz | hoff
  · subst hz; simp
  · rw [Finset.disjoint_left]
    intro x hx hx'
    rw [Finset.mem_Ico] at hx hx'
    have e1 : x / off = i :=
      Nat.div_eq_of_lt_le hx.1 (by rw [Nat.add_mul, one_mul]; exact hx.2)
    have e2 : x / off = i' :=
      Nat.div_eq_of_lt_le hx'.1 (by rw [Nat.add_mul, one_mul]; exact hx'.2)
    exact h (e1 ▸ e2)

/-- Membership in the block list produced by `get_slices` for a positive
head id. -/
theorem mem_block_list {t off : ℕ} {p : ℕ × ℕ} :
    p ∈ ((((List.range t).filter fun i => i % 2 == 0).map
            fun i => (i * off, i * off + off)) ++
         (((List.range t).filter fun i => i % 2 == 1).map
            fun i => (i * off, i * off + off))) ↔
      ∃ i < t, p = (i * off, i * off + off) := by
  simp only [List.mem_append, List.mem_map, List.mem_filter, List.mem_range]
  constructor
  · rintro (⟨i, ⟨hi, _⟩, rfl⟩ | ⟨i, ⟨hi, _⟩, rfl⟩) <;> exact ⟨i, hi, rfl⟩
  · rintro ⟨i, hi, rfl⟩
    rcases Nat.mod_two_eq_zero_or_one i with h2 | h2
    · exact Or.inl ⟨i, ⟨hi, by simp [h2]⟩, rfl⟩
    · exact Or.inr ⟨i, ⟨hi, by simp [h2]⟩, rfl⟩


/-- The block list of `get_slices` is pairwise disjoint. -/
theorem blocks_pairwise (off t : ℕ) :
    List.Pairwise (fun p q : ℕ × ℕ =>
        Disjoint (Finset.Ico p.1 p.2) (Finset.Ico q.1 q.2))
      ((((List.range t).filter fun i => i % 2 == 0).map
          fun i => (i * off, i * off + off)) ++
       (((List.range t).filter fun i => i % 2 == 1).map
          fun i => (i * off, i * off + off))) := by
  rw [List.pairwise_append]
  refine ⟨?_, ?_, ?_⟩
  · exact ((List.pairwise_lt_range t).filter _).map _
      (fun a b hab => block_disjoint (Nat.ne_of_lt hab))
  · exact ((List.pairwise_lt_range t).filter _).map _
      (fun a b hab => block_disjoint (Nat.ne_of_lt hab))
  · intro p hp q hq
    simp only [List.mem_map, List.mem_filter, List.mem_range] at hp hq
    obtain ⟨i, ⟨_, hi2⟩, rfl⟩ := hp
    obtain ⟨i', ⟨_, hi2'⟩, rfl⟩ := hq
    refine block_disjoint fun h => ?_
    subst h
    simp only [beq_iff_eq] at hi2 hi2'
    omega

/-- When the block size divides `dim`, the blocks of `get_slices` tile
`[0, dim)` exactly. -/
theorem unionOf_blocks (dim off t : ℕ) (hoff : 0 < off) (hdvd : off ∣ dim)
    (ht : t = (dim + off - 1) / off) :
    unionOf ((((List.range t).filter fun i => i % 2 == 0).map
          fun i => (i * off, i * off + off)) ++
       (((List.range t).filter fun i => i % 2 == 1).map
          fun i => (i * off, i * off + off))) = Finset.Ico 0 dim := by
  obtain ⟨c, rfl⟩ := hdvd
  have htc : t = c := by
    subst ht
    have h1 : off * c + off - 1 = off * c + (off - 1) := by omega
    rw [h1, Nat.mul_add_div hoff, Nat.div_eq_of_lt (by omega)]
    omega
  subst htc
  ext x
  rw [mem_unionOf, Finset.mem_Ico]
  constructor
  · rintro ⟨p, hp, hx1, hx2⟩
    obtain ⟨i, hi, rfl⟩ := mem_block_list.mp hp
    refine ⟨Nat.zero_le x, ?_⟩
    have h2 : i * off + off = (i + 1) * off := by rw [Nat.add_mul, one_mul]
    have h3 : (i + 1) * off ≤ t * off := Nat.mul_le_mul_right off hi
    have h4 : t * off = off * t := Nat.mul_comm t off
    omega
  · rintro ⟨-, hx⟩
    refine ⟨(x / off * off, x / off * off + off), ?_, ?_, ?_⟩
    · refine mem_block_list.mpr ⟨x / off, ?_, rfl⟩
      rw [Nat.div_lt_iff_lt_mul hoff, Nat.mul_comm t off]
      omega
    · exact Nat.div_mul_le_self x off
    · have h1 := Nat.div_add_mod x off
      have h2 : x % off < off := Nat.mod_lt x hoff
      have h3 : off * (x / off) = x / off * off := Nat.mul_comm _ _
      omega

/-- Claim C3: `get_slices(dim, 0)` is the single range `[(0, dim)]`; for
`head_id > 0` with a positive block size `offset = dim / 2^(head_id+1)`, the
result is the blocks `(i*offset, i*offset + offset)` for
`i < ⌈dim/offset⌉` (block starts `0, offset, 2*offset, …` up to `dim`),
those at even ordinal positions first (in ascending order), then those at
odd ordinal positions; in particular
`get_slices 8 1 = [(0,2),(4,6),(2,4),(6,8)]`. -/
theorem get_slices_spec :
    (∀ dim : ℕ, get_slices dim 0 = some [(0, dim)]) ∧
    (∀ dim head_id : ℕ, head_id ≠ 0 → 0 < dim / 2 ^ (head_id + 1) →
      get_slices dim head_id = some
        ((((List.range ((dim + dim / 2 ^ (head_id + 1) - 1) /
              (dim / 2 ^ (head_id + 1)))).filter fun i => i % 2 == 0).map
            fun i => (i * (dim / 2 ^ (head_id + 1)),
              i * (dim / 2 ^ (head_id + 1)) + dim / 2 ^ (head_id + 1))) ++
         (((List.range ((dim + dim / 2 ^ (head_id + 1) - 1) /
              (dim / 2 ^ (head_id + 1)))).filter fun i => i % 2 == 1).map
            fun i => (i * (dim / 2 ^ (head_id + 1)),
              i * (dim / 2 ^ (head_id + 1)) + dim / 2 ^ (head_id + 1))))) ∧
    get_slices 8 1 = some [(0, 2), (4, 6), (2, 4), (6, 8)] :=
  ⟨get_slices_head0,
   fun dim head_id h0 hoff => get_slices_eq dim head_id _ _ h0 rfl hoff rfl,
   by decide⟩

theorem get_slices_spec_witness :
    (1 : ℕ) ≠ 0 ∧ 0 < 8 / 2 ^ (1 + 1) ∧
      get_slices 8 1 = some [(0, 2), (4, 6), (2, 4), (6, 8)] :=
  ⟨by decide, by decide, get_slices_spec.2.1 8 1 (by decide) (by decide)⟩

/-- Claim C10: For `head_id ≥ 1`, `get_slices(dim, head_id)` fails exactly
when `dim < 2^(head_id+1)` (the computed block size is then `0`, so
`np.arange` raises); for `dim ≥ 2^(head_id+1)` it returns a slice list. -/
theorem get_slices_failure (head_id : ℕ) (h1 : 1 ≤ head_id) (dim : ℕ) :
    (dim < 2 ^ (head_id + 1) → get_slices dim head_id = none) ∧
    (2 ^ (head_id + 1) ≤ dim → get_slices dim head_id ≠ none) := by
  have h0 : head_id ≠ 0 := by omega
  constructor
  · intro hlt
    simp [get_slices, h0, Nat.div_eq_of_lt hlt]
  · intro hle
    have hpow : 0 < 2 ^ (head_id + 1) := Nat.pos_pow_of_pos _ (by omega)
    have hoff : 0 < dim / 2 ^ (head_id + 1) :=
      (Nat.le_div_iff_mul_le hpow).mpr (by omega)
    rw [get_slices_eq dim head_id _ _ h0 rfl hoff rfl]
    simp

theorem get_slices_failure_witness :
    get_slices 3 1 = none ∧ get_slices 4 1 ≠ none :=
  ⟨(get_slices_failure 1 (by decide) 3).1 (by decide),
   (get_slices_failure 1 (by decide) 4).2 (by decide)⟩

/-- Claim C4, counterexample: For `dim = 11`, `head_id = 1` the call
succeeds but the returned ranges do not cover exactly `[0, 11)`: the final
block `(10, 12)` overshoots, so `11` lies in the union. -/
theorem get_slices_union_cex :
    get_slices 11 1 = some [(0, 2), (4, 6), (8, 10), (2, 4), (6, 8), (10, 12)] ∧
    11 ∈ unionOf [(0, 2), (4, 6), (8, 10), (2, 4), (6, 8), (10, 12)] ∧
    11 ∉ Finset.Ico 0 11 := by
  refine ⟨by decide, by decide, by decide⟩

/-- Claim C4, amended: Whenever `get_slices` succeeds its ranges are pairwise
disjoint; the union equals `[0, dim)` when `head_id = 0` or when the block
size `dim / 2^(head_id+1)` divides `dim` (the counterexample `dim = 11`,
`head_id = 1` shows the union clause fails without the divisibility
condition). -/
theorem get_slices_partition (dim head_id : ℕ) (l : List (ℕ × ℕ))
    (hl : get_slices dim head_id = some l) :
    List.Pairwise (fun p q =>
        Disjoint (Finset.Ico p.1 p.2) (Finset.Ico q.1 q.2)) l ∧
    ((head_id = 0 ∨ dim / 2 ^ (head_id + 1) ∣ dim) →
      unionOf l = Finset.Ico 0 dim) := by
  by_cases h0 : head_id = 0
  · subst h0
    rw [get_slices_head0] at hl
    obtain rfl : [(0, dim)] = l := Option.some.inj hl
    refine ⟨List.pairwise_singleton _ _, fun _ => ?_⟩
    simp [unionOf]
  · rcases Nat.eq_zero_or_pos (dim / 2 ^ (head_id + 1)) with hz | hoff
    · simp [get_slices, h0, hz] at hl
    · rw [get_slices_eq dim head_id _ _ h0 rfl hoff rfl] at hl
      obtain rfl := (Option.some.inj hl).symm
      refine ⟨blocks_pairwise _ _, ?_⟩
      rintro (h0' | hdvd)
      · exact absurd h0' h0
      · exact unionOf_blocks dim _ _ hoff hdvd rfl

theorem get_slices_partition_witness :
    get_slices 8 1 = some [(0, 2), (4, 6), (2, 4), (6, 8)] ∧
    (List.Pairwise (fun p q =>
        Disjoint (Finset.Ico p.1 p.2) (Finset.Ico q.1 q.2))
      [(0, 2), (4, 6), (2, 4), (6, 8)] ∧
    ((1 = 0 ∨ 8 / 2 ^ (1 + 1) ∣ 8) →
      unionOf [(0, 2), (4, 6), (2, 4), (6, 8)] = Finset.Ico 0 8)) :=
  ⟨by decide, get_slices_partition 8 1 _ (by decide)⟩

/-! ### Lemmas about `cartesian_product` -/

theorem divNat_flatPos {d1 d2 : ℕ} (i : Fin d1) (j : Fin d2) :
    (flatPos i j).divNat = i := by
  have hd2 : 0 < d2 := j.pos
  apply Fin.ext
  show (i.val * d2 + j.val) / d2 = i.val
  rw [Nat.mul_comm i.val d2, Nat.mul_add_div hd2, Nat.div_eq_of_lt j.isLt]
  omega

theorem modNat_flatPos {d1 d2 : ℕ} (i : Fin d1) (j : Fin d2) :
    (flatPos i j).modNat = j := by
  apply Fin.ext
  show (i.val * d2 + j.val) % d2 = j.val
  rw [Nat.mul_comm i.val d2, Nat.mul_add_mod d2 i.val j.val,
    Nat.mod_eq_of_lt j.isLt]

/-- Claim C2: For same-row-count index matrices `a : (n, d1)` and
`b : (n, d2)` (the equal row count `n` and the output shape
`(n, d1 * d2, 2)` are enforced by the types of the embedding),
`cartesian_product` places the ordered pair `(a r i, b r j)` at the
flattened row-major position `i * d2 + j` of row `r`; the position map is
injective, so each pair appears exactly once; for `d1 = 2`, `d2 = 3` the
six entries of a row are exactly the six ordered pairs in row-major
order. -/
theorem cartesian_product_pairs (α : Type) :
    (∀ (n d1 d2 : ℕ) (a : Fin n → Fin d1 → α) (b : Fin n → Fin d2 → α)
        (r : Fin n) (i : Fin d1) (j : Fin d2),
      cartesian_product a b r (flatPos i j) = (a r i, b r j)) ∧
    (∀ d1 d2 : ℕ,
      Function.Injective fun p : Fin d1 × Fin d2 => flatPos p.1 p.2) ∧
    (∀ (n : ℕ) (a : Fin n → Fin 2 → α) (b : Fin n → Fin 3 → α) (r : Fin n),
      List.ofFn (cartesian_product a b r) =
        [(a r 0, b r 0), (a r 0, b r 1), (a r 0, b r 2),
         (a r 1, b r 0), (a r 1, b r 1), (a r 1, b r 2)]) := by
  refine ⟨?_, ?_, ?_⟩
  · intro n d1 d2 a b r i j
    unfold cartesian_product
    rw [divNat_flatPos, modNat_flatPos]
  · intro d1 d2 p q h
    have h1 := congrArg Fin.divNat h
    have h2 := congrArg Fin.modNat h
    rw [divNat_flatPos, divNat_flatPos] at h1
    rw [modNat_flatPos, modNat_flatPos] at h2
    exact Prod.ext h1 h2
  · intro n a b r
    rfl

/-! ### Lemmas about the fallback nearest-neighbor search -/

section KnnLemmas

variable {α : Type} [LinearOrderedField α]

theorem rankedIdx_perm {m : ℕ} (col : Fin m → α) :
    List.Perm (rankedIdx col) (List.finRange m) :=
  List.perm_insertionSort _ _

theorem rankedIdx_length {m : ℕ} (col : Fin m → α) :
    (rankedIdx col).length = m := by
  rw [(rankedIdx_perm col).length_eq, List.length_finRange]

theorem rankedIdx_nodup {m : ℕ} (col : Fin m → α) : (rankedIdx col).Nodup :=
  (rankedIdx_perm col).nodup_iff.mpr (List.nodup_finRange m)

theorem rankedIdx_sorted {m : ℕ} (col : Fin m → α) :
    (rankedIdx col).Sorted (knnOrder col) :=
  List.sorted_insertionSort _ _

theorem pytorchScores_dot {m n d : ℕ} (sqrt : α → α) (a : Fin m → Fin d → α)
    (b : Fin n → Fin d → α) :
    pytorchScores sqrt "dot_product" a b = fun i j => dot (a i) (b j) := by
  unfold pytorchScores
  rw [if_pos rfl]

theorem pytorchScores_cosine {m n d : ℕ} (sqrt : α → α)
    (a : Fin m → Fin d → α) (b : Fin n → Fin d → α) :
    pytorchScores sqrt "cosine" a b = fun i j =>
      dot (a i) (b j) / (nrm sqrt (a i) + 1 / 1000000000)
        / (nrm sqrt (b j) + 1 / 1000000000) := by
  unfold pytorchScores
  rw [if_neg (by decide), if_pos rfl]

theorem pytorchScores_l2 {m n d : ℕ} (sqrt : α → α) (a : Fin m → Fin d → α)
    (b : Fin n → Fin d → α) :
    pytorchScores sqrt "l2" a b = fun i j =>
      2 * dot (a i) (b j) - sqnorm (a i) - sqnorm (b j) := by
  unfold pytorchScores
  rw [if_neg (by decide), if_neg (by decide)]

/-- The `l2` score of the source is exactly the negative squared Euclidean
distance between the query row and the key row. -/
theorem l2_score_eq_neg_sqdist {m n d : ℕ} (sqrt : α → α)
    (a : Fin m → Fin d → α) (b : Fin n → Fin d → α) (i : Fin m) (j : Fin n) :
    pytorchScores sqrt "l2" a b i j = -∑ t, (b j t - a i t) ^ 2 := by
  rw [pytorchScores_l2]
  have hexp : ∑ t, (b j t - a i t) ^ 2
      = sqnorm (b j) - 2 * dot (a i) (b j) + sqnorm (a i) := by
    unfold sqnorm dot
    calc ∑ t, (b j t - a i t) ^ 2
        = ∑ t, ((b j t) ^ 2 - 2 * (a i t * b j t) + (a i t) ^ 2) :=
          Finset.sum_congr rfl fun t _ => by ring
      _ = (∑ t, (b j t) ^ 2 - ∑ t, 2 * (a i t * b j t)) + ∑ t, (a i t) ^ 2 := by
          rw [Finset.sum_add_distrib, Finset.sum_sub_distrib]
      _ = ∑ t, (b j t) ^ 2 - 2 * ∑ t, a i t * b j t + ∑ t, (a i t) ^ 2 := by
          rw [Finset.mul_sum]
  dsimp only
  rw [hexp]
  ring

end KnnLemmas

/-- Claim C7: Under the `cosine` distance the fallback search scores a
(query, key) pair as the dot product divided by the product of the two norm
factors, with the epsilon `1e-9` added independently to each factor:
`score = (q·k) / ((‖q‖ + 1e-9) * (‖k‖ + 1e-9))`. -/
theorem cosine_score_formula {m n d : ℕ} (a : Fin m → Fin d → ℝ)
    (b : Fin n → Fin d → ℝ) (i : Fin m) (j : Fin n) :
    pytorchScores Real.sqrt "cosine" a b i j =
      (∑ t, b j t * a i t) /
        ((Real.sqrt (∑ t, (b j t) ^ 2) + 1 / 1000000000) *
         (Real.sqrt (∑ t, (a i t) ^ 2) + 1 / 1000000000)) := by
  rw [pytorchScores_cosine]
  dsimp only
  rw [div_div]
  have hdot : dot (a i) (b j) = ∑ t, b j t * a i t :=
    Finset.sum_congr rfl fun t _ => mul_comm _ _
  rw [hdot, mul_comm]
  rfl

/-- Claim C5, counterexample: The native (faiss) variant's argument checks
pass with `k = 0` on otherwise valid inputs — so, contrary to the claim,
`search` does not fail with `InvalidArgument` for `k ≤ 0` on both variants —
and they reject `"cosine"` even though it is one of the three enumerated
distance values. -/
theorem knn_faiss_check_cex :
    get_knn_faiss_check 0 0 4 4 0 "dot_product" = true ∧
    (0 : ℤ) ≤ 0 ∧
    get_knn_faiss_check 0 0 4 4 1 "cosine" = false := by
  refine ⟨by decide, by decide, by decide⟩

/-- Claim C5, amended: The fallback variant fails with `InvalidArgument`
exactly when `k ≤ 0`, or the distance tag is not one of
`dot_product`/`cosine`/`l2`, or the feature dimensions differ (and then no
result is produced); the native variant's validation instead fails exactly
when the devices differ, the distance tag is not one of
`dot_product`/`l2`, or the feature dimensions differ — it performs no check
on `k`. -/
theorem knn_invalid_argument_iff {α : Type} [LinearOrderedField α]
    {m da n db : ℕ} (sqrt : α → α) (a : Fin m → Fin da → α)
    (b : Fin n → Fin db → α) (k : ℤ) (distance : String)
    (bdev qdev bd qd : ℕ) (k' : ℤ) (distance' : String) :
    (get_knn_pytorch sqrt a b k distance = Except.error "InvalidArgument" ↔
      k ≤ 0 ∨ distance ∉ ["dot_product", "cosine", "l2"] ∨ db ≠ da) ∧
    (get_knn_faiss_check bdev qdev bd qd k' distance' = false ↔
      bdev ≠ qdev ∨ distance' ∉ ["dot_product", "l2"] ∨ qd ≠ bd) := by
  constructor
  · unfold get_knn_pytorch
    by_cases h : db = da ∧ 0 < k ∧ distance ∈ ["dot_product", "cosine", "l2"]
    · rw [dif_pos h]
      obtain ⟨h1, h2, h3⟩ := h
      have hrhs : ¬(k ≤ 0 ∨ distance ∉ ["dot_product", "cosine", "l2"] ∨
          db ≠ da) := by
        push_neg
        exact ⟨by omega, h3, h1⟩
      by_cases hk : k.toNat ≤ m
      · rw [if_pos hk]
        exact iff_of_false (fun hcontra => by simp at hcontra) hrhs
      · rw [if_neg hk]
        refine iff_of_false (fun hcontra => ?_) hrhs
        injection hcontra with hs
        exact absurd hs (by decide)
    · rw [dif_neg h]
      refine iff_of_true rfl ?_
      by_contra hc
      push_neg at hc
      exact h ⟨hc.2.2, by omega, hc.2.1⟩
  · unfold get_knn_faiss_check
    constructor
    · intro hfalse
      by_contra hc
      push_neg at hc
      obtain ⟨h1, h2, h3⟩ := hc
      rw [h1, h3] at hfalse
      simp [h2] at hfalse
    · intro hc
      rcases hc with h | h | h <;> simp [h]

/-- Claim C6: For keys `a : (m, d)`, queries `b : (n, d)`, a valid distance
tag and `0 < k ≤ m`, the fallback search succeeds and returns score rows
and index rows of length `k` such that each score row is sorted descending,
each index row holds `k` distinct key-row indices, and each score is
exactly the selected distance score between the query row and the key row
at the paired index. -/
theorem get_knn_pytorch_sound {α : Type} [LinearOrderedField α]
    {m n d : ℕ} (sqrt : α → α) (distance : String) (a : Fin m → Fin d → α)
    (b : Fin n → Fin d → α) (k : ℤ)
    (hdist : distance ∈ ["dot_product", "cosine", "l2"]) (hk : 0 < k)
    (hkm : k.toNat ≤ m) :
    ∃ S I, get_knn_pytorch sqrt a b k distance = Except.ok (S, I) ∧
      ∀ j, (S j).length = k.toNat ∧ (I j).length = k.toNat ∧ (I j).Nodup ∧
        (S j).Sorted (· ≥ ·) ∧
        S j = (I j).map fun i => pytorchScores sqrt distance a b i j := by
  have heq : get_knn_pytorch sqrt a b k distance
      = Except.ok (topkPhase (pytorchScores sqrt distance a b) k.toNat) := by
    unfold get_knn_pytorch
    rw [dif_pos ⟨rfl, hk, hdist⟩, if_pos hkm]
    rfl
  refine ⟨(topkPhase (pytorchScores sqrt distance a b) k.toNat).1,
    (topkPhase (pytorchScores sqrt distance a b) k.toNat).2, heq, fun j => ?_⟩
  have hlen : ((rankedIdx fun i => pytorchScores sqrt distance a b i j).take
      k.toNat).length = k.toNat := by
    rw [List.length_take, rankedIdx_length]
    omega
  refine ⟨?_, hlen, ?_, ?_, rfl⟩
  · show ((((rankedIdx fun i => pytorchScores sqrt distance a b i j).take
        k.toNat).map fun i => pytorchScores sqrt distance a b i j).length
        = k.toNat)
    rw [List.length_map]
    exact hlen
  · exact (List.take_sublist _ _).nodup
      (rankedIdx_nodup fun i => pytorchScores sqrt distance a b i j)
  · refine List.Pairwise.map _ (fun i i' hii => ?_)
      (List.Pairwise.sublist (List.take_sublist _ _)
        (rankedIdx_sorted fun i => pytorchScores sqrt distance a b i j))
    rcases hii with hlt | ⟨heq', -⟩
    · exact le_of_lt hlt
    · exact heq'.ge

theorem get_knn_pytorch_sound_witness :
    ("dot_product" ∈ ["dot_product", "cosine", "l2"]) ∧ (0 : ℤ) < 1 ∧
    (1 : ℤ).toNat ≤ 1 ∧
    (∃ S I, get_knn_pytorch (α := ℚ) id (fun (_ : Fin 1) (_ : Fin 1) => 2)
        (fun (_ : Fin 1) (_ : Fin 1) => 3) 1 "dot_product" =
          Except.ok (S, I) ∧
      ∀ j, (S j).length = (1 : ℤ).toNat ∧ (I j).length = (1 : ℤ).toNat ∧
        (I j).Nodup ∧ (S j).Sorted (· ≥ ·) ∧
        S j = (I j).map fun i => pytorchScores id "dot_product"
          (fun (_ : Fin 1) (_ : Fin 1) => (2 : ℚ))
          (fun (_ : Fin 1) (_ : Fin 1) => (3 : ℚ)) i j) :=
  ⟨by decide, by decide, by decide,
   get_knn_pytorch_sound id "dot_product" _ _ 1 (by decide) (by decide)
     (by decide)⟩

/-- Claim C1: Under the `l2` distance (score
`2·(q·k) − ‖q‖² − ‖k‖²`), for `0 < k ≤ m` the index set returned by the
fallback search equals, per query row, the index set obtained by directly
ranking the key rows by negative squared Euclidean distance to the query
(sets compared with `toFinset`, ignoring order among tied scores). -/
theorem l2_topk_eq_negsqdist_topk {α : Type} [LinearOrderedField α]
    {m n d : ℕ} (sqrt : α → α) (a : Fin m → Fin d → α)
    (b : Fin n → Fin d → α) (k : ℤ) (hk : 0 < k) (hkm : k.toNat ≤ m) :
    ∃ S I, get_knn_pytorch sqrt a b k "l2" = Except.ok (S, I) ∧
      ∀ j, (I j).toFinset = (knnByNegSqdist a b k.toNat j).toFinset := by
  have heq : get_knn_pytorch sqrt a b k "l2"
      = Except.ok (topkPhase (pytorchScores sqrt "l2" a b) k.toNat) := by
    unfold get_knn_pytorch
    rw [dif_pos ⟨rfl, hk, by decide⟩, if_pos hkm]
    rfl
  refine ⟨(topkPhase (pytorchScores sqrt "l2" a b) k.toNat).1,
    (topkPhase (pytorchScores sqrt "l2" a b) k.toNat).2, heq, fun j => ?_⟩
  have hcol : (fun i => pytorchScores sqrt "l2" a b i j)
      = fun i => -∑ t, (b j t - a i t) ^ 2 :=
    funext fun i => l2_score_eq_neg_sqdist sqrt a b i j
  show ((rankedIdx fun i => pytorchScores sqrt "l2" a b i j).take
      k.toNat).toFinset = _
  rw [hcol]
  rfl

theorem l2_topk_eq_negsqdist_topk_witness :
    (0 : ℤ) < 1 ∧ (1 : ℤ).toNat ≤ 2 ∧
    (∃ S I, get_knn_pytorch (α := ℚ) id
        (fun (i : Fin 2) (_ : Fin 1) => if i = 0 then 0 else 3)
        (fun (_ : Fin 1) (_ : Fin 1) => 2) 1 "l2" = Except.ok (S, I) ∧
      ∀ j, (I j).toFinset =
        (knnByNegSqdist (fun (i : Fin 2) (_ : Fin 1) => if i = 0 then (0 : ℚ) else 3)
          (fun (_ : Fin 1) (_ : Fin 1) => 2) (1 : ℤ).toNat j).toFinset) :=
  ⟨by decide, by decide,
   l2_topk_eq_negsqdist_topk id _ _ 1 (by decide) (by decide)⟩

/-! ### Lemmas about the key generators -/

/-- Normalizing a non-zero row by its L2 norm yields a unit-norm row. -/
theorem row_normalize_unit (d : ℕ) (x : Fin d → ℝ) (j0 : Fin d)
    (hx : x j0 ≠ 0) :
    nrm Real.sqrt (fun j => x j / nrm Real.sqrt x) = 1 := by
  have hS : 0 < ∑ t, x t ^ 2 :=
    Finset.sum_pos' (fun t _ => sq_nonneg _)
      ⟨j0, Finset.mem_univ _, pow_two_pos_of_ne_zero hx⟩
  unfold nrm sqnorm
  have hone : ∑ t, (x t / Real.sqrt (∑ t2, x t2 ^ 2)) ^ 2 = 1 := by
    have hcalc : ∀ t : Fin d, (x t / Real.sqrt (∑ t2, x t2 ^ 2)) ^ 2
        = x t ^ 2 / (∑ t2, x t2 ^ 2) := by
      intro t
      rw [div_pow, Real.sq_sqrt hS.le]
    rw [Finset.sum_congr rfl fun t _ => hcalc t, ← Finset.sum_div,
      div_self hS.ne']
  rw [hone, Real.sqrt_one]

/-- Claim C9: For both key generators with `normalized = true`, a row whose
sample is non-zero comes out with L2 norm equal to `1` within the tolerance
`1e-5` (in the exact-arithmetic model the norm is exactly `1`). -/
theorem normalized_rows_unit_norm (n d : ℕ)
    (gsample usample : Fin n → Fin d → ℝ) (i : Fin n) (j0 : Fin d)
    (hg : gsample i j0 ≠ 0) (hu : usample i j0 ≠ 0) :
    |nrm Real.sqrt (get_gaussian_keys Real.sqrt n d true gsample i) - 1|
        ≤ 1 / 100000 ∧
    |nrm Real.sqrt (get_uniform_keys Real.sqrt n d true usample i) - 1|
        ≤ 1 / 100000 := by
  have h1 : nrm Real.sqrt (get_gaussian_keys Real.sqrt n d true gsample i)
      = 1 := row_normalize_unit d (gsample i) j0 hg
  have h2 : nrm Real.sqrt (get_uniform_keys Real.sqrt n d true usample i)
      = 1 := row_normalize_unit d (usample i) j0 hu
  rw [h1, h2]
  norm_num

theorem normalized_rows_unit_norm_witness :
    ((if (0 : Fin 2) = 0 then (3 : ℝ) else 4) ≠ 0) ∧
    (|nrm Real.sqrt (get_gaussian_keys Real.sqrt 1 2 true
        (fun _ j => if j = 0 then (3 : ℝ) else 4) 0) - 1| ≤ 1 / 100000 ∧
     |nrm Real.sqrt (get_uniform_keys Real.sqrt 1 2 true
        (fun _ j => if j = 0 then (3 : ℝ) else 4) 0) - 1| ≤ 1 / 100000) :=
  have h : ((fun (_ : Fin 1) (j : Fin 2) => if j = 0 then (3 : ℝ) else 4)
      0 0) ≠ 0 := by norm_num
  ⟨h, normalized_rows_unit_norm 1 2 _ _ 0 0 h h⟩

/-- Claim C8, counterexample: With `normalized = true` the range law fails:
the sample row `(1/4, 0, 0, 0)` for `dim = 4` lies inside the drawn range
`[-1/2, 1/2)`, but after row normalization its first entry is `1`, which
exceeds `1/sqrt 4 = 1/2`. -/
theorem get_uniform_keys_range_cex :
    inRange (-(1 / Real.sqrt ((4 : ℕ) : ℝ))) (1 / Real.sqrt ((4 : ℕ) : ℝ))
      (fun (_ : Fin 1) (j : Fin 4) => if j = 0 then (1 / 4 : ℝ) else 0) ∧
    get_uniform_keys Real.sqrt 1 4 true
      (fun (_ : Fin 1) (j : Fin 4) => if j = 0 then (1 / 4 : ℝ) else 0) 0 0
      = 1 ∧
    ¬(get_uniform_keys Real.sqrt 1 4 true
        (fun (_ : Fin 1) (j : Fin 4) => if j = 0 then (1 / 4 : ℝ) else 0) 0 0
      ≤ 1 / Real.sqrt ((4 : ℕ) : ℝ)) := by
  have hsqrt4 : Real.sqrt ((4 : ℕ) : ℝ) = 2 := by
    rw [show ((4 : ℕ) : ℝ) = (2 : ℝ) ^ 2 by norm_num,
      Real.sqrt_sq (by norm_num : (0 : ℝ) ≤ 2)]
  have hval : get_uniform_keys Real.sqrt 1 4 true
      (fun (_ : Fin 1) (j : Fin 4) => if j = 0 then (1 / 4 : ℝ) else 0) 0 0
      = 1 := by
    show (if (0 : Fin 4) = 0 then (1 / 4 : ℝ) else 0) /
        nrm Real.sqrt (fun j : Fin 4 => if j = 0 then (1 / 4 : ℝ) else 0) = 1
    have hnrm : nrm Real.sqrt
        (fun j : Fin 4 => if j = 0 then (1 / 4 : ℝ) else 0) = 1 / 4 := by
      unfold nrm sqnorm
      rw [Fin.sum_univ_four]
      dsimp only
      rw [if_pos rfl, if_neg (by decide : ¬((1 : Fin 4) = 0)),
        if_neg (by decide : ¬((2 : Fin 4) = 0)),
        if_neg (by decide : ¬((3 : Fin 4) = 0))]
      rw [show ((1 / 4 : ℝ) ^ 2 + 0 ^ 2 + 0 ^ 2 + 0 ^ 2) = (1 / 4 : ℝ) ^ 2
        by norm_num]
      rw [Real.sqrt_sq (by norm_num : (0 : ℝ) ≤ 1 / 4)]
    rw [hnrm]
    norm_num
  refine ⟨?_, hval, ?_⟩
  · intro i j
    rw [hsqrt4]
    dsimp only
    by_cases hj : j = 0
    · rw [if_pos hj]
      norm_num
    · rw [if_neg hj]
      norm_num
  · rw [hval, hsqrt4]
    norm_num

/-- Claim C8, amended: For `normalized = false`, every entry of the matrix
returned by `get_uniform_keys` lies in the closed interval
`[-1/sqrt dim, 1/sqrt dim]` whenever the drawn sample respects numpy's
half-open range contract `[-1/sqrt dim, 1/sqrt dim)`; the counterexample
shows the claim fails for `normalized = true`. -/
theorem get_uniform_keys_range (n d : ℕ) (sample : Fin n → Fin d → ℝ)
    (i : Fin n) (j : Fin d)
    (hs : inRange (-(1 / Real.sqrt (d : ℝ))) (1 / Real.sqrt (d : ℝ)) sample) :
    -(1 / Real.sqrt (d : ℝ)) ≤ get_uniform_keys Real.sqrt n d false sample i j
      ∧ get_uniform_keys Real.sqrt n d false sample i j
        ≤ 1 / Real.sqrt (d : ℝ) := by
  have h := hs i j
  have hfalse : get_uniform_keys Real.sqrt n d false sample i j
      = sample i j := rfl
  rw [hfalse]
  exact ⟨h.1, le_of_lt h.2⟩

theorem get_uniform_keys_range_witness :
    inRange (-(1 / Real.sqrt ((1 : ℕ) : ℝ))) (1 / Real.sqrt ((1 : ℕ) : ℝ))
      (fun (_ : Fin 1) (_ : Fin 1) => (0 : ℝ)) ∧
    (-(1 / Real.sqrt ((1 : ℕ) : ℝ)) ≤
        get_uniform_keys Real.sqrt 1 1 false
          (fun (_ : Fin 1) (_ : Fin 1) => (0 : ℝ)) 0 0 ∧
      get_uniform_keys Real.sqrt 1 1 false
          (fun (_ : Fin 1) (_ : Fin 1) => (0 : ℝ)) 0 0
        ≤ 1 / Real.sqrt ((1 : ℕ) : ℝ)) :=
  have hs : inRange (-(1 / Real.sqrt ((1 : ℕ) : ℝ)))
      (1 / Real.sqrt ((1 : ℕ) : ℝ))
      (fun (_ : Fin 1) (_ : Fin 1) => (0 : ℝ)) := fun _ _ => by
    norm_num [Real.sqrt_one]
  ⟨hs, get_uniform_keys_range 1 1 _ 0 0 hs⟩
